import Mathlib

/-!
Verification of the `pointerguard` crate (`src/lib.rs`): an owning pointer
whose backing address is stored obfuscated and decoded transiently on each
access.  Machine integers (`u64`) are embedded as `Nat` with explicit
truncation `% 2 ^ 64` wherever the Rust operation wraps.
-/

namespace PointerGuard

/-- `2 ^ 64`, the size of the `u64` domain. -/
def U64 : Nat := 2 ^ 64

/-- Rust `u64::rotate_left(x, n)`: the rotation amount acts modulo 64; the
low `64 - n % 64` bits of `x` move up by `n % 64` places and the high
`n % 64` bits wrap to the bottom.  For `x < 2 ^ 64` this is exactly the
bit rotation of the 64-bit word. -/
def rotl64 (x n : Nat) : Nat :=
  (x % 2 ^ (64 - n % 64)) * 2 ^ (n % 64) + x / 2 ^ (64 - n % 64)

/-- Rust `u64::rotate_right(x, n)`, the inverse rotation. -/
def rotr64 (x n : Nat) : Nat :=
  (x % 2 ^ (n % 64)) * 2 ^ (64 - n % 64) + x / 2 ^ (n % 64)

/-- `MethodA::encrypt` from `src/lib.rs` (lines 116–123): XOR with the key,
rotate by the key's low nibble, XOR with `key << 3` (wrapping), rotate by 7,
XOR with `key.rotate_left(11)`. -/
def MethodA.encrypt (data key : Nat) : Nat :=
  let d1 := data ^^^ key
  let d2 := rotl64 d1 (key &&& 0xF)
  let d3 := d2 ^^^ ((key <<< 3) % U64)
  let d4 := rotl64 d3 7
  d4 ^^^ rotl64 key 11

/-- `MethodA::decrypt` (lines 126–134): the same steps inverted in reverse
order. -/
def MethodA.decrypt (data key : Nat) : Nat :=
  let d1 := data ^^^ rotl64 key 11
  let d2 := rotr64 d1 7
  let d3 := d2 ^^^ ((key <<< 3) % U64)
  let d4 := rotr64 d3 (key &&& 0xF)
  d4 ^^^ key

/-- `MethodB::encrypt` (lines 140–147). -/
def MethodB.encrypt (data key : Nat) : Nat :=
  let d1 := data ^^^ key
  let d2 := rotl64 d1 13
  let d3 := d2 ^^^ rotl64 key 5
  let d4 := rotl64 d3 9
  d4 ^^^ rotl64 key 17

/-- `MethodB::decrypt` (lines 150–157). -/
def MethodB.decrypt (data key : Nat) : Nat :=
  let d1 := data ^^^ rotl64 key 17
  let d2 := rotr64 d1 9
  let d3 := d2 ^^^ rotl64 key 5
  let d4 := rotr64 d3 13
  d4 ^^^ key

/-- `MethodC::encrypt` (lines 163–171): XOR with the key, XOR with the
recombined key halves `((key >> 32) << 32) | (key & 0xFFFFFFFF)`, rotate by
`key % 31`, XOR with `key ^ (key >> 11)`. -/
def MethodC.encrypt (data key : Nat) : Nat :=
  let d1 := data ^^^ key
  let upper := key >>> 32
  let lower := key &&& 0xFFFFFFFF
  let d2 := d1 ^^^ (((upper <<< 32) % U64) ||| lower)
  let d3 := rotl64 d2 (key % 31)
  d3 ^^^ (key ^^^ (key >>> 11))

/-- `MethodC::decrypt` (lines 174–182). -/
def MethodC.decrypt (data key : Nat) : Nat :=
  let d1 := data ^^^ (key ^^^ (key >>> 11))
  let d2 := rotr64 d1 (key % 31)
  let upper := key >>> 32
  let lower := key &&& 0xFFFFFFFF
  let d3 := d2 ^^^ (((upper <<< 32) % U64) ||| lower)
  d3 ^^^ key

/-! ### Basic facts about XOR and rotation -/

theorem xor_cancel (a b : Nat) : (a ^^^ b) ^^^ b = a := by
  rw [Nat.xor_assoc, Nat.xor_self, Nat.xor_zero]

theorem rot_amount_lt (n : Nat) : n % 64 < 64 :=
  Nat.mod_lt _ (by norm_num)

theorem rot_pow_split (n : Nat) : 2 ^ (64 - n % 64) * 2 ^ (n % 64) = 2 ^ 64 := by
  rw [← pow_add]
  congr 1
  omega

theorem rotl64_lt (x n : Nat) (hx : x < 2 ^ 64) : rotl64 x n < 2 ^ 64 := by
  unfold rotl64
  have hs := rot_pow_split n
  have h1 : x / 2 ^ (64 - n % 64) < 2 ^ (n % 64) := by
    apply Nat.div_lt_of_lt_mul
    calc x < 2 ^ 64 := hx
    _ = 2 ^ (64 - n % 64) * 2 ^ (n % 64) := hs.symm
  have h2 : x % 2 ^ (64 - n % 64) < 2 ^ (64 - n % 64) :=
    Nat.mod_lt _ (Nat.pos_pow_of_pos _ (by norm_num))
  calc x % 2 ^ (64 - n % 64) * 2 ^ (n % 64) + x / 2 ^ (64 - n % 64)
      < x % 2 ^ (64 - n % 64) * 2 ^ (n % 64) + 2 ^ (n % 64) :=
        Nat.add_lt_add_left h1 _
    _ = (x % 2 ^ (64 - n % 64) + 1) * 2 ^ (n % 64) := by ring
    _ ≤ 2 ^ (64 - n % 64) * 2 ^ (n % 64) :=
        Nat.mul_le_mul_right _ h2
    _ = 2 ^ 64 := hs

theorem rotr64_lt (x n : Nat) (hx : x < 2 ^ 64) : rotr64 x n < 2 ^ 64 := by
  unfold rotr64
  have hs : 2 ^ (n % 64) * 2 ^ (64 - n % 64) = 2 ^ 64 := by
    rw [← pow_add]
    congr 1
    omega
  have h1 : x / 2 ^ (n % 64) < 2 ^ (64 - n % 64) := by
    apply Nat.div_lt_of_lt_mul
    calc x < 2 ^ 64 := hx
    _ = 2 ^ (n % 64) * 2 ^ (64 - n % 64) := hs.symm
  have h2 : x % 2 ^ (n % 64) < 2 ^ (n % 64) :=
    Nat.mod_lt _ (Nat.pos_pow_of_pos _ (by norm_num))
  calc x % 2 ^ (n % 64) * 2 ^ (64 - n % 64) + x / 2 ^ (n % 64)
      < x % 2 ^ (n % 64) * 2 ^ (64 - n % 64) + 2 ^ (64 - n % 64) :=
        Nat.add_lt_add_left h1 _
    _ = (x % 2 ^ (n % 64) + 1) * 2 ^ (64 - n % 64) := by ring
    _ ≤ 2 ^ (n % 64) * 2 ^ (64 - n % 64) :=
        Nat.mul_le_mul_right _ h2
    _ = 2 ^ 64 := hs

/-- Rotating right undoes rotating left on the 64-bit domain. -/
theorem rotr64_rotl64 (x n : Nat) (hx : x < 2 ^ 64) :
    rotr64 (rotl64 x n) n = x := by
  unfold rotl64 rotr64
  have hs := rot_pow_split n
  have hpos : 0 < 2 ^ (n % 64) := Nat.pos_pow_of_pos _ (by norm_num)
  have h1 : x / 2 ^ (64 - n % 64) < 2 ^ (n % 64) := by
    apply Nat.div_lt_of_lt_mul
    calc x < 2 ^ 64 := hx
    _ = 2 ^ (64 - n % 64) * 2 ^ (n % 64) := hs.symm
  have hmod : (x % 2 ^ (64 - n % 64) * 2 ^ (n % 64) + x / 2 ^ (64 - n % 64))
      % 2 ^ (n % 64) = x / 2 ^ (64 - n % 64) := by
    rw [Nat.mul_comm, Nat.mul_add_mod]
    exact Nat.mod_eq_of_lt h1
  have hdiv : (x % 2 ^ (64 - n % 64) * 2 ^ (n % 64) + x / 2 ^ (64 - n % 64))
      / 2 ^ (n % 64) = x % 2 ^ (64 - n % 64) := by
    rw [Nat.mul_comm, Nat.mul_add_div hpos]
    rw [Nat.div_eq_of_lt h1, Nat.add_zero]
  rw [hmod, hdiv]
  calc x / 2 ^ (64 - n % 64) * 2 ^ (64 - n % 64) + x % 2 ^ (64 - n % 64)
      = 2 ^ (64 - n % 64) * (x / 2 ^ (64 - n % 64)) + x % 2 ^ (64 - n % 64) := by
        ring
    _ = x := Nat.div_add_mod x _

theorem U64_pos : 0 < U64 := by norm_num [U64]

theorem mod_U64_lt (a : Nat) : a % U64 < 2 ^ 64 := by
  have := Nat.mod_lt a U64_pos
  simpa [U64] using this

/-! ### Round-trip: each method's decrypt inverts its encrypt -/

theorem methodA_roundtrip (data key : Nat) (hd : data < 2 ^ 64)
    (hk : key < 2 ^ 64) :
    MethodA.decrypt (MethodA.encrypt data key) key = data := by
  have h1 : data ^^^ key < 2 ^ 64 := Nat.xor_lt_two_pow hd hk
  have h2 : rotl64 (data ^^^ key) (key &&& 0xF) < 2 ^ 64 := rotl64_lt _ _ h1
  have h3 : rotl64 (data ^^^ key) (key &&& 0xF) ^^^ (key <<< 3) % U64 < 2 ^ 64 :=
    Nat.xor_lt_two_pow h2 (mod_U64_lt _)
  simp only [MethodA.encrypt, MethodA.decrypt]
  rw [xor_cancel, rotr64_rotl64 _ 7 h3, xor_cancel, rotr64_rotl64 _ _ h1,
    xor_cancel]

theorem methodB_roundtrip (data key : Nat) (hd : data < 2 ^ 64)
    (hk : key < 2 ^ 64) :
    MethodB.decrypt (MethodB.encrypt data key) key = data := by
  have h1 : data ^^^ key < 2 ^ 64 := Nat.xor_lt_two_pow hd hk
  have h2 : rotl64 (data ^^^ key) 13 < 2 ^ 64 := rotl64_lt _ _ h1
  have h3 : rotl64 (data ^^^ key) 13 ^^^ rotl64 key 5 < 2 ^ 64 :=
    Nat.xor_lt_two_pow h2 (rotl64_lt _ _ hk)
  simp only [MethodB.encrypt, MethodB.decrypt]
  rw [xor_cancel, rotr64_rotl64 _ 9 h3, xor_cancel, rotr64_rotl64 _ 13 h1,
    xor_cancel]

theorem methodC_roundtrip (data key : Nat) (hd : data < 2 ^ 64)
    (hk : key < 2 ^ 64) :
    MethodC.decrypt (MethodC.encrypt data key) key = data := by
  have h1 : data ^^^ key < 2 ^ 64 := Nat.xor_lt_two_pow hd hk
  have hlow : key &&& 0xFFFFFFFF < 2 ^ 64 :=
    Nat.lt_of_le_of_lt Nat.and_le_left hk
  have h2 : data ^^^ key ^^^ (((key >>> 32) <<< 32) % U64 ||| key &&& 0xFFFFFFFF)
      < 2 ^ 64 :=
    Nat.xor_lt_two_pow h1 (Nat.or_lt_two_pow (mod_U64_lt _) hlow)
  simp only [MethodC.encrypt, MethodC.decrypt]
  rw [xor_cancel, rotr64_rotl64 _ _ h2, xor_cancel, xor_cancel]

/-! ### The closed set of transform variants

`src/lib.rs` dispatches through `Box<dyn Encrypt>` over exactly the three
structs `MethodA`, `MethodB`, `MethodC`; we embed that closed set as a sum
type. -/

inductive Method : Type
  | methodA : Method
  | methodB : Method
  | methodC : Method
deriving DecidableEq, Repr

def Method.encrypt : Method → Nat → Nat → Nat
  | .methodA, data, key => MethodA.encrypt data key
  | .methodB, data, key => MethodB.encrypt data key
  | .methodC, data, key => MethodC.encrypt data key

def Method.decrypt : Method → Nat → Nat → Nat
  | .methodA, data, key => MethodA.decrypt data key
  | .methodB, data, key => MethodB.decrypt data key
  | .methodC, data, key => MethodC.decrypt data key

/-- The vector `vec![Box::new(MethodA), Box::new(MethodB), Box::new(MethodC)]`
built in `EncryptedPtr::new`; `methods.remove(i)` returns its `i`-th element. -/
def methodsList : List Method := [.methodA, .methodB, .methodC]

/-! ### The clock and the RNG

`generate_key` reads `SystemTime::now().duration_since(UNIX_EPOCH)` and
truncates the nanosecond count to `u64`.  The clock reading is an input of
the embedding: an integer count of nanoseconds relative to `UNIX_EPOCH`
(negative when the clock is set before the epoch).  `duration_since`
returns `Err` exactly when the reading is earlier than the epoch, and the
`.unwrap()` turns that `Err` into a panic, which we model as `none` (a
fatal, non-recoverable outcome with no error value to handle). -/

def duration_since_epoch (now : Int) : Except Unit Nat :=
  if now < 0 then .error () else .ok now.toNat

/-- `EncryptedPtr::generate_key` (lines 22–27), as a function of the clock
reading: `none` models the `unwrap` panic. -/
def generate_key (now : Int) : Option Nat :=
  match duration_since_epoch now with
  | .ok nanos => some (nanos % U64)
  | .error _ => none

/-! ### The encrypted pointer -/

/-- The state of an `EncryptedPtr<T>` (lines 12–17): the stored transformed
address, the key, and the chosen method.  The `PhantomData` marker has no
runtime content. -/
structure EncryptedPtr where
  encrypted_ptr : Nat
  key : Nat
  method : Method
deriving DecidableEq, Repr

/-- `EncryptedPtr::new` (lines 31–51).  The two draws it performs —
`generate_key()`'s clock-derived key and `rand::random_range(0..3)`'s index
into the method vector — are inputs of the embedding. -/
def EncryptedPtr.new (ptr : Nat) (key : Nat) (idx : Fin 3) : EncryptedPtr :=
  let method := methodsList.get ⟨idx.val, by cases idx with
    | mk v h => simpa [methodsList] using h⟩
  { encrypted_ptr := method.encrypt ptr key
    key := key
    method := method }

/-- `EncryptedPtr::decrypt_ptr` (lines 55–59). -/
def EncryptedPtr.decrypt_ptr (p : EncryptedPtr) : Nat :=
  p.method.decrypt p.encrypted_ptr p.key

/-- The heap is a map from addresses to pointee values; `Deref::deref`
(lines 66–71) reads the heap at the decrypted address. -/
def EncryptedPtr.deref {α : Type} (heap : Nat → α) (p : EncryptedPtr) : α :=
  heap p.decrypt_ptr

/-- The `Player` struct of the crate's tests, used by the spec's concrete
scenario 2. -/
structure Player where
  health : Nat
deriving DecidableEq, Repr

/-! ### Debug formatting

`impl fmt::Debug` (lines 104–111) prints
`EncryptedPtr \x7b encrypted_value: "0x…", pointed_value: … \x7d`:
the stored value through `format!("\x7b:#x\x7d", self.encrypted_ptr)` —
a `0x`-prefixed lowercase hexadecimal rendering with as many digits as the
value needs — and the pointee through its own `Debug`.  The
`encrypted_value` field is a `String`, so `debug_struct` quotes it. -/

/-- Rust `format!("\x7b:#x\x7d", n)` for a `u64`: `0x` followed by the
minimal lowercase hexadecimal digits of `n`. -/
def rustHex (n : Nat) : String :=
  "0x" ++ String.mk (Nat.toDigits 16 n)

/-- The output of `<EncryptedPtr<T> as fmt::Debug>::fmt`, given the pointee
type's own `Debug` rendering `dbg` and the heap. -/
def debugFmt {α : Type} (dbg : α → String) (heap : Nat → α)
    (p : EncryptedPtr) : String :=
  "EncryptedPtr \x7b encrypted_value: \"" ++ rustHex p.encrypted_ptr ++
    "\", pointed_value: " ++ dbg (p.deref heap) ++ " \x7d"

/-! ### Bit-level characterization of rotation -/

theorem testBit_mul_pow_add (a b m i : Nat) (hb : b < 2 ^ m) :
    (a * 2 ^ m + b).testBit i =
      if i < m then b.testBit i else a.testBit (i - m) := by
  rcases Nat.lt_or_ge i m with h | h
  · rw [if_pos h, Nat.testBit_to_div_mod, Nat.testBit_to_div_mod]
    have hsplit : a * 2 ^ m + b = 2 ^ i * (a * 2 ^ (m - i)) + b := by
      have hpow : (2 : Nat) ^ m = 2 ^ i * 2 ^ (m - i) := by
        rw [← pow_add]
        congr 1
        omega
      rw [hpow]
      ring
    rw [hsplit, Nat.mul_add_div (Nat.two_pow_pos i)]
    have h2 : a * 2 ^ (m - i) + b / 2 ^ i
        = 2 * (a * 2 ^ (m - i - 1)) + b / 2 ^ i := by
      have hpow : (2 : Nat) ^ (m - i) = 2 * 2 ^ (m - i - 1) := by
        have h1 : m - i = (m - i - 1) + 1 := by omega
        calc (2 : Nat) ^ (m - i) = 2 ^ ((m - i - 1) + 1) := by rw [← h1]
        _ = 2 * 2 ^ (m - i - 1) := pow_succ' 2 _
      rw [hpow]
      ring
    rw [h2, Nat.mul_add_mod]
  · rw [if_neg (Nat.not_lt.mpr h), Nat.testBit_to_div_mod,
      Nat.testBit_to_div_mod]
    have hsplit : (2 : Nat) ^ i = 2 ^ m * 2 ^ (i - m) := by
      rw [← pow_add]
      congr 1
      omega
    rw [hsplit, ← Nat.div_div_eq_div_mul]
    have hq : (a * 2 ^ m + b) / 2 ^ m = a := by
      rw [Nat.mul_comm, Nat.mul_add_div (Nat.two_pow_pos m),
        Nat.div_eq_of_lt hb, Nat.add_zero]
    rw [hq]

theorem testBit_rotl64 (x n i : Nat) (hx : x < 2 ^ 64) (hi : i < 64) :
    (rotl64 x n).testBit i = x.testBit ((i + 64 - n % 64) % 64) := by
  have hm := rot_amount_lt n
  have hb : x / 2 ^ (64 - n % 64) < 2 ^ (n % 64) := by
    apply Nat.div_lt_of_lt_mul
    calc x < 2 ^ 64 := hx
    _ = 2 ^ (64 - n % 64) * 2 ^ (n % 64) := (rot_pow_split n).symm
  unfold rotl64
  rw [testBit_mul_pow_add _ _ _ _ hb]
  rcases Nat.lt_or_ge i (n % 64) with h | h
  · rw [if_pos h, ← Nat.shiftRight_eq_div_pow, Nat.testBit_shiftRight]
    congr 1
    omega
  · rw [if_neg (Nat.not_lt.mpr h), Nat.testBit_mod_two_pow]
    have : i - n % 64 < 64 - n % 64 := by omega
    rw [decide_eq_true this, Bool.true_and]
    congr 1
    omega

/-- Rotation distributes over XOR on the 64-bit domain. -/
theorem rotl64_xor (a b n : Nat) (ha : a < 2 ^ 64) (hb : b < 2 ^ 64) :
    rotl64 (a ^^^ b) n = rotl64 a n ^^^ rotl64 b n := by
  apply Nat.eq_of_testBit_eq
  intro i
  rcases Nat.lt_or_ge i 64 with hi | hi
  · rw [testBit_rotl64 _ _ _ (Nat.xor_lt_two_pow ha hb) hi, Nat.testBit_xor,
      Nat.testBit_xor, testBit_rotl64 _ _ _ ha hi, testBit_rotl64 _ _ _ hb hi]
  · have hpow : (2 : Nat) ^ 64 ≤ 2 ^ i := Nat.pow_le_pow_right (by norm_num) hi
    rw [Nat.testBit_lt_two_pow, Nat.testBit_lt_two_pow]
    · exact Nat.lt_of_lt_of_le
        (Nat.xor_lt_two_pow (rotl64_lt _ _ ha) (rotl64_lt _ _ hb)) hpow
    · exact Nat.lt_of_lt_of_le (rotl64_lt _ _ (Nat.xor_lt_two_pow ha hb)) hpow

theorem rotl64_two_pow (j n : Nat) (h : j + n % 64 < 64) :
    rotl64 (2 ^ j) n = 2 ^ (j + n % 64) := by
  have hlt : (2 : Nat) ^ j < 2 ^ (64 - n % 64) :=
    Nat.pow_lt_pow_right (by norm_num) (by omega)
  unfold rotl64
  rw [Nat.mod_eq_of_lt hlt, Nat.div_eq_of_lt hlt, Nat.add_zero, ← pow_add]

theorem rotl64_zero (n : Nat) : rotl64 0 n = 0 := by
  simp [rotl64]

theorem rotl64_zero_amount (x : Nat) (hx : x < 2 ^ 64) : rotl64 x 0 = x := by
  unfold rotl64
  simp only [Nat.zero_mod, Nat.sub_zero, pow_zero, Nat.mul_one]
  rw [Nat.mod_eq_of_lt hx, Nat.div_eq_of_lt hx, Nat.add_zero]

/-! ### The recombined key halves equal the key itself -/

theorem or_mul_pow_eq_add (a b m : Nat) (hb : b < 2 ^ m) :
    (a * 2 ^ m) ||| b = a * 2 ^ m + b := by
  apply Nat.eq_of_testBit_eq
  intro i
  rw [Nat.testBit_or, testBit_mul_pow_add _ _ _ _ hb, ← Nat.shiftLeft_eq,
    Nat.testBit_shiftLeft]
  rcases Nat.lt_or_ge i m with h | h
  · rw [if_pos h, decide_eq_false (by omega), Bool.false_and, Bool.false_or]
  · rw [if_neg (Nat.not_lt.mpr h), decide_eq_true h, Bool.true_and]
    have : b.testBit i = false :=
      Nat.testBit_lt_two_pow
        (Nat.lt_of_lt_of_le hb (Nat.pow_le_pow_right (by norm_num) h))
    rw [this, Bool.or_false]

/-- `((key >> 32) << 32) | (key & 0xFFFFFFFF)` rebuilds `key` exactly
(the cancellation behind claim C10). -/
theorem recombine_halves (key : Nat) (hk : key < 2 ^ 64) :
    ((key >>> 32) <<< 32) % U64 ||| key &&& 0xFFFFFFFF = key := by
  have hdiv : key / 2 ^ 32 < 2 ^ 32 := by
    apply Nat.div_lt_of_lt_mul
    calc key < 2 ^ 64 := hk
    _ = 2 ^ 32 * 2 ^ 32 := by norm_num
  have hsh : (key >>> 32) <<< 32 = key / 2 ^ 32 * 2 ^ 32 := by
    rw [Nat.shiftRight_eq_div_pow, Nat.shiftLeft_eq]
  have hlt : key / 2 ^ 32 * 2 ^ 32 < 2 ^ 64 := by
    calc key / 2 ^ 32 * 2 ^ 32 < 2 ^ 32 * 2 ^ 32 :=
          Nat.mul_lt_mul_of_lt_of_le hdiv (Nat.le_refl _) (Nat.two_pow_pos 32)
    _ = 2 ^ 64 := by norm_num
  have hmask : key &&& 0xFFFFFFFF = key % 2 ^ 32 := by
    have := Nat.and_pow_two_sub_one_eq_mod key 32
    norm_num at this ⊢
    exact this
  rw [hsh, hmask, show (key / 2 ^ 32 * 2 ^ 32) % U64 = key / 2 ^ 32 * 2 ^ 32
      from Nat.mod_eq_of_lt (by simpa [U64] using hlt),
    or_mul_pow_eq_add _ _ _ (Nat.mod_lt _ (Nat.two_pow_pos 32))]
  rw [Nat.mul_comm]
  exact Nat.div_add_mod key (2 ^ 32)

/-- `MethodC::encrypt` collapses: the opening XOR with the key and the XOR
with the recombined halves cancel, leaving one rotation and one XOR layer. -/
theorem methodC_encrypt_eq (data key : Nat) (hk : key < 2 ^ 64) :
    MethodC.encrypt data key = rotl64 data (key % 31) ^^^ (key ^^^ key >>> 11) := by
  simp only [MethodC.encrypt]
  rw [recombine_halves key hk, xor_cancel]

/-! ### Further helper lemmas -/

theorem xor_xor_cancel_right (p a u : Nat) : (p ^^^ a ^^^ u) ^^^ (a ^^^ u) = p := by
  rw [Nat.xor_assoc p a u]
  exact xor_cancel p (a ^^^ u)

theorem rotl64_one (n : Nat) : rotl64 1 n = 2 ^ (n % 64) := by
  have h := rotl64_two_pow 0 n (by have := rot_amount_lt n; omega)
  simpa using h

/-- Successive rotations compose additively. -/
theorem rotl64_rotl64 (x a b : Nat) (hx : x < 2 ^ 64) :
    rotl64 (rotl64 x a) b = rotl64 x (a + b) := by
  apply Nat.eq_of_testBit_eq
  intro i
  rcases Nat.lt_or_ge i 64 with hi | hi
  · rw [testBit_rotl64 _ _ _ (rotl64_lt _ _ hx) hi,
      testBit_rotl64 _ _ _ hx (by omega : (i + 64 - b % 64) % 64 < 64),
      testBit_rotl64 _ _ _ hx hi]
    congr 1
    omega
  · have hpow : (2 : Nat) ^ 64 ≤ 2 ^ i := Nat.pow_le_pow_right (by norm_num) hi
    rw [Nat.testBit_lt_two_pow
        (Nat.lt_of_lt_of_le (rotl64_lt _ _ (rotl64_lt _ _ hx)) hpow),
      Nat.testBit_lt_two_pow (Nat.lt_of_lt_of_le (rotl64_lt _ _ hx) hpow)]

/-- `MethodA::encrypt` is affine in `data`: XORing out the image of zero
leaves the pure double rotation of `data`. -/
theorem methodA_encrypt_xor (d key : Nat) (hd : d < 2 ^ 64)
    (hk : key < 2 ^ 64) :
    MethodA.encrypt d key ^^^ MethodA.encrypt 0 key
      = rotl64 (rotl64 d (key &&& 0xF)) 7 := by
  simp only [MethodA.encrypt, Nat.zero_xor]
  rw [rotl64_xor d key _ hd hk,
    Nat.xor_assoc (rotl64 d (key &&& 0xF)) (rotl64 key (key &&& 0xF))
      ((key <<< 3) % U64),
    rotl64_xor (rotl64 d (key &&& 0xF))
      (rotl64 key (key &&& 0xF) ^^^ (key <<< 3) % U64) 7 (rotl64_lt _ _ hd)
      (Nat.xor_lt_two_pow (rotl64_lt _ _ hk) (mod_U64_lt _))]
  exact xor_xor_cancel_right _ _ _

/-- `MethodB::encrypt` is affine in `data` in the same way. -/
theorem methodB_encrypt_xor (d key : Nat) (hd : d < 2 ^ 64)
    (hk : key < 2 ^ 64) :
    MethodB.encrypt d key ^^^ MethodB.encrypt 0 key
      = rotl64 (rotl64 d 13) 9 := by
  simp only [MethodB.encrypt, Nat.zero_xor]
  rw [rotl64_xor d key 13 hd hk,
    Nat.xor_assoc (rotl64 d 13) (rotl64 key 13) (rotl64 key 5),
    rotl64_xor (rotl64 d 13) (rotl64 key 13 ^^^ rotl64 key 5) 9
      (rotl64_lt _ _ hd)
      (Nat.xor_lt_two_pow (rotl64_lt _ _ hk) (rotl64_lt _ _ hk))]
  exact xor_xor_cancel_right _ _ _

/-- For any key, `MethodA::encrypt` is not the identity on the 64-bit
domain: some address is moved. -/
theorem methodA_not_identity (key : Nat) (hk : key < 2 ^ 64) :
    ∃ data, data < 2 ^ 64 ∧ MethodA.encrypt data key ≠ data := by
  by_cases h0 : MethodA.encrypt 0 key = 0
  · refine ⟨1, by norm_num, ?_⟩
    have hm : key &&& 0xF < 16 :=
      Nat.lt_of_le_of_lt Nat.and_le_right (by norm_num)
    have h1 : MethodA.encrypt 1 key = 2 ^ ((key &&& 0xF) + 7 % 64) := by
      have haff := methodA_encrypt_xor 1 key (by norm_num) hk
      rw [h0, Nat.xor_zero] at haff
      rw [haff, rotl64_one, Nat.mod_eq_of_lt (by omega),
        rotl64_two_pow _ 7 (by omega)]
    rw [h1]
    have hgt : 1 < 2 ^ ((key &&& 0xF) + 7 % 64) :=
      Nat.one_lt_two_pow (by omega)
    exact ne_of_gt hgt
  · exact ⟨0, by norm_num, h0⟩

/-- For any key, `MethodB::encrypt` is not the identity on the 64-bit
domain. -/
theorem methodB_not_identity (key : Nat) (hk : key < 2 ^ 64) :
    ∃ data, data < 2 ^ 64 ∧ MethodB.encrypt data key ≠ data := by
  by_cases h0 : MethodB.encrypt 0 key = 0
  · refine ⟨1, by norm_num, ?_⟩
    have h1 : MethodB.encrypt 1 key = 2 ^ 22 := by
      have haff := methodB_encrypt_xor 1 key (by norm_num) hk
      rw [h0, Nat.xor_zero] at haff
      rw [haff, rotl64_one, Nat.mod_eq_of_lt (by omega),
        rotl64_two_pow _ 9 (by omega)]
    rw [h1]
    norm_num
  · exact ⟨0, by norm_num, h0⟩

/-- For a nonzero key, `MethodC::encrypt` moves the address `0`. -/
theorem methodC_not_identity (key : Nat) (hk0 : key ≠ 0)
    (hk : key < 2 ^ 64) :
    ∃ data, data < 2 ^ 64 ∧ MethodC.encrypt data key ≠ data := by
  refine ⟨0, by norm_num, ?_⟩
  rw [methodC_encrypt_eq 0 key hk, rotl64_zero, Nat.zero_xor]
  intro h
  have hkey : key = key >>> 11 := Nat.xor_eq_zero.mp h
  rw [Nat.shiftRight_eq_div_pow] at hkey
  have h2048 : (2 : Nat) ^ 11 = 2048 := by norm_num
  rw [h2048] at hkey
  omega

/-- Round trip, uniformly over the closed variant set. -/
theorem Method.roundtrip (m : Method) (data key : Nat) (hd : data < 2 ^ 64)
    (hk : key < 2 ^ 64) :
    m.decrypt (m.encrypt data key) key = data := by
  cases m with
  | methodA => exact methodA_roundtrip data key hd hk
  | methodB => exact methodB_roundtrip data key hd hk
  | methodC => exact methodC_roundtrip data key hd hk

/-- `decrypt_ptr` recovers the address that `new` encoded, whatever key and
method draw `new` received. -/
theorem EncryptedPtr.new_decrypt_ptr (ptr key : Nat) (idx : Fin 3)
    (hp : ptr < 2 ^ 64) (hk : key < 2 ^ 64) :
    (EncryptedPtr.new ptr key idx).decrypt_ptr = ptr := by
  simp only [EncryptedPtr.decrypt_ptr, EncryptedPtr.new]
  exact Method.roundtrip _ _ _ hp hk

/-! ### Claim theorems -/

/-- C1: for every Transform variant (MethodA, MethodB, MethodC) and for all
64-bit values `data` and `key`, `decrypt (encrypt data key) key = data`. -/
theorem C1_round_trip (m : Method) (data key : Nat) (hd : data < 2 ^ 64)
    (hk : key < 2 ^ 64) :
    m.decrypt (m.encrypt data key) key = data :=
  Method.roundtrip m data key hd hk

/-- Witness for C1 at the spec's concrete scenario 1 values. -/
theorem C1_round_trip_witness :
    Method.decrypt .methodA
        (Method.encrypt .methodA 0xFEDCBA0987654321 0x1234567890ABCDEF)
        0x1234567890ABCDEF = 0xFEDCBA0987654321 :=
  C1_round_trip .methodA 0xFEDCBA0987654321 0x1234567890ABCDEF (by norm_num)
    (by norm_num)

/-- C2: wrapping a value on the heap and reading back through `deref`
yields the original value, for every key and method draw. -/
theorem C2_transparency {α : Type} (heap : Nat → α) (v : α) (addr key : Nat)
    (idx : Fin 3) (ha : addr < 2 ^ 64) (hk : key < 2 ^ 64)
    (hv : heap addr = v) :
    (EncryptedPtr.new addr key idx).deref heap = v := by
  unfold EncryptedPtr.deref
  rw [EncryptedPtr.new_decrypt_ptr addr key idx ha hk, hv]

/-- Witness for C2: a `Player` with `health = 100` still reads 100 after
wrapping (the spec's concrete scenario 2). -/
theorem C2_transparency_witness :
    ((EncryptedPtr.new 4096 0x1234567890ABCDEF 0).deref
      (fun _ => Player.mk 100)).health = 100 := by
  rw [C2_transparency (fun _ => Player.mk 100) (Player.mk 100) 4096
    0x1234567890ABCDEF 0 (by norm_num) (by norm_num) rfl]

/-- C3: an `EncryptedPtr` built by `new` decodes its stored encrypted
address back to exactly the original pointer, whatever key and variant draw
construction received. -/
theorem C3_new_decodes_to_original (ptr key : Nat) (idx : Fin 3)
    (hp : ptr < 2 ^ 64) (hk : key < 2 ^ 64) :
    (EncryptedPtr.new ptr key idx).decrypt_ptr = ptr :=
  EncryptedPtr.new_decrypt_ptr ptr key idx hp hk

/-- Witness for C3 at a concrete pointer, key, and variant draw. -/
theorem C3_new_decodes_to_original_witness :
    (EncryptedPtr.new 4096 0x1234567890ABCDEF 1).decrypt_ptr = 4096 :=
  C3_new_decodes_to_original 4096 0x1234567890ABCDEF 1 (by norm_num)
    (by norm_num)

/-- C4 as stated is false: `MethodA` with the nonzero key `6` leaves the
address `0x7fd3fe9ff4ffa7fa` unchanged (and the other two variants have
analogous fixed points, e.g. key `5` for MethodB and key `3` for MethodC). -/
theorem C4_nonzero_key_counterexample :
    ¬ (∀ (m : Method) (key data : Nat), key ≠ 0 → key < 2 ^ 64 →
        data < 2 ^ 64 → Method.encrypt m data key ≠ data) := by
  intro h
  exact h .methodA 6 0x7fd3fe9ff4ffa7fa (by norm_num) (by norm_num)
    (by norm_num) (by decide)

/-- C4 amended: for every variant and every nonzero 64-bit key the encoding
map is not the identity — some 64-bit address has its stored bits changed —
though particular addresses can be left fixed by particular nonzero keys. -/
theorem C4_nonzero_key_moves_some_address (m : Method) (key : Nat)
    (hk0 : key ≠ 0) (hk : key < 2 ^ 64) :
    ∃ data, data < 2 ^ 64 ∧ Method.encrypt m data key ≠ data := by
  cases m with
  | methodA => exact methodA_not_identity key hk
  | methodB => exact methodB_not_identity key hk
  | methodC => exact methodC_not_identity key hk0 hk

/-- Witness for the amended C4 at variant MethodC and key 3. -/
theorem C4_nonzero_key_moves_some_address_witness :
    ∃ data, data < 2 ^ 64 ∧ Method.encrypt .methodC data 3 ≠ data :=
  C4_nonzero_key_moves_some_address .methodC 3 (by norm_num) (by norm_num)

/-- C5 as stated is false: with key 0, `MethodA` still rotates the address,
e.g. it maps address 1 to 128. -/
theorem C5_key_zero_counterexample :
    ¬ (∀ (m : Method) (addr : Nat), addr < 2 ^ 64 →
        Method.encrypt m addr 0 = addr) := by
  intro h
  exact absurd (h .methodA 1 (by norm_num)) (by decide)

/-- C5 amended: with the degenerate key 0 only `MethodC` leaves every
address unchanged; `MethodA` rotates every address left by 7 bits and
`MethodB` by 22 bits, so key 0 is an identity only for the MethodC
variant. -/
theorem C5_key_zero_amended (addr : Nat) (ha : addr < 2 ^ 64) :
    MethodC.encrypt addr 0 = addr ∧ MethodA.encrypt addr 0 = rotl64 addr 7 ∧
      MethodB.encrypt addr 0 = rotl64 addr 22 := by
  refine ⟨?_, ?_, ?_⟩
  · rw [methodC_encrypt_eq addr 0 (by norm_num)]
    simp only [Nat.zero_mod, Nat.zero_shiftRight, Nat.xor_zero]
    exact rotl64_zero_amount addr ha
  · simp only [MethodA.encrypt, Nat.xor_zero, Nat.zero_and,
      Nat.zero_shiftLeft, Nat.zero_mod, rotl64_zero,
      rotl64_zero_amount addr ha]
  · simp only [MethodB.encrypt, Nat.xor_zero, rotl64_zero,
      rotl64_rotl64 addr 13 9 ha]

/-- Witness for the amended C5 at address 5. -/
theorem C5_key_zero_amended_witness :
    MethodC.encrypt 5 0 = 5 ∧ MethodA.encrypt 5 0 = rotl64 5 7 ∧
      MethodB.encrypt 5 0 = rotl64 5 22 :=
  C5_key_zero_amended 5 (by norm_num)

/-- C6 as stated is false: the `Debug` impl renders the stored encoded
address through `format!("\x7b:#x\x7d", …)`, whose width follows the value,
so two stored values can render with different widths — it is not
fixed-width. -/
theorem C6_fixed_width_counterexample :
    ¬ (∀ a b : Nat, a < 2 ^ 64 → b < 2 ^ 64 →
        (rustHex a).length = (rustHex b).length) := by
  intro h
  exact absurd (h 5 0x123456789 (by norm_num) (by norm_num)) (by decide)

/-- C6 amended: the debug representation renders the stored encoded address
as a `0x`-prefixed minimal-width hexadecimal integer (quoted, because the
field is built as a string), alongside the decoded pointee's own textual
representation — which, by the round trip, is the representation of the
value at the original address. -/
theorem C6_debug_format (α : Type) (dbg : α → String) (heap : Nat → α)
    (addr key : Nat) (idx : Fin 3) (ha : addr < 2 ^ 64) (hk : key < 2 ^ 64) :
    debugFmt dbg heap (EncryptedPtr.new addr key idx)
      = "EncryptedPtr \x7b encrypted_value: \""
          ++ rustHex ((EncryptedPtr.new addr key idx).encrypted_ptr)
          ++ "\", pointed_value: " ++ dbg (heap addr) ++ " \x7d" := by
  unfold debugFmt EncryptedPtr.deref
  rw [EncryptedPtr.new_decrypt_ptr addr key idx ha hk]

/-- Witness for the amended C6 with a concrete `Player` pointee. -/
theorem C6_debug_format_witness :
    debugFmt (fun p : Player => toString p.health) (fun _ => Player.mk 100)
        (EncryptedPtr.new 4096 77 2)
      = "EncryptedPtr \x7b encrypted_value: \""
          ++ rustHex ((EncryptedPtr.new 4096 77 2).encrypted_ptr)
          ++ "\", pointed_value: " ++ toString (100 : Nat) ++ " \x7d" :=
  C6_debug_format Player (fun p => toString p.health) (fun _ => Player.mk 100)
    4096 77 2 (by norm_num) (by norm_num)

/-- C7 as stated is false: the variant is chosen by
`rand::random_range(0..3)`, a randomness source independent of the clock,
so two constructions observing the same clock value (hence the same key)
can select different variants. -/
theorem C7_clock_sole_source_counterexample :
    ¬ (∀ (ptr key : Nat) (i j : Fin 3),
        (EncryptedPtr.new ptr key i).method
          = (EncryptedPtr.new ptr key j).method) := by
  intro h
  exact absurd (h 0 0 0 1) (by decide)

/-- C7 amended: the clock determines only the key; the variant is a
function of the independent `rand` draw alone — the same draw yields the
same variant whatever the clock reading, and the key stored is exactly the
clock-derived key. -/
theorem C7_variant_from_rng_only (ptr₁ ptr₂ key₁ key₂ : Nat) (idx : Fin 3) :
    (EncryptedPtr.new ptr₁ key₁ idx).method
        = (EncryptedPtr.new ptr₂ key₂ idx).method
      ∧ (EncryptedPtr.new ptr₁ key₁ idx).key = key₁ :=
  ⟨rfl, rfl⟩

/-- C8: `generate_key` is a total function of the clock reading — it
returns a key for every reading at or after the epoch (normal operation),
and the only readings on which it fails are those on which no epoch-relative
duration exists, where the `unwrap` panics, modeled as `none`: a fatal
outcome with no recoverable error value. -/
theorem C8_generate_key_failure_semantics :
    (∀ now : Int, 0 ≤ now → (generate_key now).isSome = true) ∧
      (∀ now : Int, generate_key now = none ↔ now < 0) := by
  constructor
  · intro now hge
    unfold generate_key duration_since_epoch
    rw [if_neg (not_lt.mpr hge)]
    rfl
  · intro now
    unfold generate_key duration_since_epoch
    rcases lt_or_ge now 0 with h | h
    · rw [if_pos h]
      exact iff_of_true rfl h
    · rw [if_neg (not_lt.mpr h)]
      exact iff_of_false (by simp) (not_lt.mpr h)

/-- Witness for C8: the reading 7 ns after the epoch succeeds; the reading
3 ns before the epoch is the fatal case. -/
theorem C8_generate_key_failure_semantics_witness :
    (generate_key 7).isSome = true ∧ generate_key (-3) = none :=
  ⟨C8_generate_key_failure_semantics.1 7 (by norm_num),
    (C8_generate_key_failure_semantics.2 (-3)).mpr (by norm_num)⟩

/-- C9: on every clock reading at or after the epoch, `generate_key`
returns the nanosecond count since the epoch reduced modulo `2 ^ 64`
(the `as u64` truncation of the `u128` nanosecond count). -/
theorem C9_generate_key_truncates (now : Int) (h : 0 ≤ now) :
    generate_key now = some (now.toNat % 2 ^ 64) := by
  unfold generate_key duration_since_epoch
  rw [if_neg (not_lt.mpr h)]
  rfl

/-- Witness for C9 at a reading larger than `2 ^ 64` nanoseconds, where the
truncation is visible. -/
theorem C9_generate_key_truncates_witness :
    generate_key 36893488147419103235 = some 3 := by
  have h := C9_generate_key_truncates 36893488147419103235 (by norm_num)
  rw [h]
  decide

/-- C10: in `MethodC::encrypt` the opening XOR with the key and the XOR
with the recombined key halves cancel, so the whole function is one
rotation by `key % 31` followed by one XOR with `key ^ (key >> 11)`. -/
theorem C10_methodC_collapses (data key : Nat) (hd : data < 2 ^ 64)
    (hk : key < 2 ^ 64) :
    MethodC.encrypt data key
      = rotl64 data (key % 31) ^^^ key ^^^ (key >>> 11) := by
  rw [methodC_encrypt_eq data key hk, Nat.xor_assoc]

/-- Witness for C10 at the spec's concrete scenario 1 values. -/
theorem C10_methodC_collapses_witness :
    MethodC.encrypt 0xFEDCBA0987654321 0x1234567890ABCDEF
      = rotl64 0xFEDCBA0987654321 (0x1234567890ABCDEF % 31)
          ^^^ 0x1234567890ABCDEF ^^^ (0x1234567890ABCDEF >>> 11) :=
  C10_methodC_collapses 0xFEDCBA0987654321 0x1234567890ABCDEF (by norm_num)
    (by norm_num)

end PointerGuard
